import Mathlib

/-!
Verification development for the NI_SNAPS add-on (src/NI_SNAPS.py):
shallow embedding of the batch-export proximity grouping and the
grouped-export translation save/offset/restore logic, together with the
helper functions `aabb_min_distance`, `inflate_aabb` and `strip_marker`.

Numeric model: the Python code computes with IEEE floats; here all
coordinates are rationals (ℚ), i.e. the arithmetic is modelled exactly,
and `math.sqrt` is `Real.sqrt` on the cast to ℝ.  Every comparison the
grouper performs on square roots is mirrored on the (executable) squared
quantities, and the agreement of the two is proved (`Real.sqrt` is
monotone on nonnegatives).
-/

namespace NISnaps

/-- A 3-component vector of rationals, modelling a `mathutils.Vector`. -/
@[ext]
structure V3 where
  x : ℚ
  y : ℚ
  z : ℚ
deriving DecidableEq, Repr

instance : Add V3 := ⟨fun a b => ⟨a.x + b.x, a.y + b.y, a.z + b.z⟩⟩

instance : Neg V3 := ⟨fun a => ⟨-a.x, -a.y, -a.z⟩⟩

instance : Sub V3 := ⟨fun a b => ⟨a.x - b.x, a.y - b.y, a.z - b.z⟩⟩

instance : Zero V3 := ⟨⟨0, 0, 0⟩⟩

theorem V3.add_def (a b : V3) : a + b = ⟨a.x + b.x, a.y + b.y, a.z + b.z⟩ := rfl

theorem V3.neg_def (a : V3) : -a = ⟨-a.x, -a.y, -a.z⟩ := rfl

theorem V3.sub_def (a b : V3) : a - b = ⟨a.x - b.x, a.y - b.y, a.z - b.z⟩ := rfl

theorem V3.zero_def : (0 : V3) = ⟨0, 0, 0⟩ := rfl

/-- Source function `inflate_aabb(a_min, a_max, pad)`: grow the box by
`pad` outward in every axis. -/
def inflate_aabb (a_min a_max : V3) (pad : ℚ) : V3 × V3 :=
  (⟨a_min.x - pad, a_min.y - pad, a_min.z - pad⟩,
   ⟨a_max.x + pad, a_max.y + pad, a_max.z + pad⟩)

/-- One axis of the gap computation of `aabb_min_distance`:
`max(0.0, b_min - a_max, a_min - b_max)` (exact, over ℚ). -/
def gapAxis (aMin aMax bMin bMax : ℚ) : ℚ :=
  max 0 (max (bMin - aMax) (aMin - bMax))

/-- The squared gap `dx*dx + dy*dy + dz*dz` of `aabb_min_distance`,
kept over ℚ so it is executable; the distance itself is its real square
root (see `aabb_min_distance`). -/
def gapSq (a_min a_max b_min b_max : V3) : ℚ :=
  let dx := gapAxis a_min.x a_max.x b_min.x b_max.x
  let dy := gapAxis a_min.y a_max.y b_min.y b_max.y
  let dz := gapAxis a_min.z a_max.z b_min.z b_max.z
  dx * dx + dy * dy + dz * dz

/-- Source function `aabb_min_distance(a_min, a_max, b_min, b_max)`:
`0.0` if the boxes overlap, otherwise the Euclidean gap between them.
Direct transcription: per-axis `max(0, b_min - a_max, a_min - b_max)`,
then `math.sqrt(dx*dx + dy*dy + dz*dz)`. -/
noncomputable def aabb_min_distance (a_min a_max b_min b_max : V3) : ℝ :=
  let dx : ℝ := max 0 (max ((b_min.x : ℝ) - a_max.x) ((a_min.x : ℝ) - b_max.x))
  let dy : ℝ := max 0 (max ((b_min.y : ℝ) - a_max.y) ((a_min.y : ℝ) - b_max.y))
  let dz : ℝ := max 0 (max ((b_min.z : ℝ) - a_max.z) ((a_min.z : ℝ) - b_max.z))
  Real.sqrt (dx * dx + dy * dy + dz * dz)

/-- A boundable scene object: an identifier plus its world AABB
(`lo` = min corner, `hi` = max corner), as precomputed by the batch
exporter into `p_aabbs` / `e_aabbs`. -/
structure BObj where
  id : ℕ
  lo : V3
  hi : V3
deriving DecidableEq, Repr

/-- The squared distance the grouper computes for one primary `p`:
`aabb_min_distance(inflate_aabb(pmin, pmax, padding), emin, emax)`
squared (the executable mirror of the loop body's `d`). -/
def gapSqTo (padding : ℚ) (emin emax : V3) (p : BObj) : ℚ :=
  let pr := inflate_aabb p.lo p.hi padding
  gapSq pr.1 pr.2 emin emax

/-- Eligibility test of the grouper, on squared quantities:
`d <= padding` in the source, with `d = sqrt (gapSqTo …)` — equivalent
to `gapSqTo … ≤ padding * padding` when `padding ≥ 0` (proved below). -/
def elig (padding : ℚ) (emin emax : V3) (p : BObj) : Prop :=
  gapSqTo padding emin emax p ≤ padding * padding

instance (padding : ℚ) (emin emax : V3) (p : BObj) :
    Decidable (elig padding emin emax p) := by
  unfold elig; infer_instance

/-- The inner loop of the proximity grouper: fold over the primaries,
keeping `best = some (best_p, best_d²)`; a primary is taken when
`d <= padding` and `best_d is None` or it strictly improves on the best
so far (ties keep the earlier primary, as in the source's
`if d < best_d`).  All comparisons are performed on the squared
distances, which `Real.sqrt`-monotonicity proves equivalent to the
source's comparisons on the distances themselves (see
`primaryDist_le_padding_iff`, `primaryDist_lt_iff`). -/
def bestPrimaryAux (padding : ℚ) (emin emax : V3) :
    List BObj → Option (BObj × ℚ) → Option (BObj × ℚ)
  | [], best => best
  | p :: ps, none =>
    bestPrimaryAux padding emin emax ps
      (if gapSqTo padding emin emax p ≤ padding * padding then
        some (p, gapSqTo padding emin emax p)
      else none)
  | p :: ps, some (bp, bdsq) =>
    bestPrimaryAux padding emin emax ps
      (if gapSqTo padding emin emax p ≤ padding * padding then
        (if gapSqTo padding emin emax p < bdsq then
          some (p, gapSqTo padding emin emax p)
        else some (bp, bdsq))
      else some (bp, bdsq))

/-- The grouper's choice of primary (and its squared distance) for one
candidate AABB: the loop starting from `best_p, best_d = None, None`. -/
def bestPrimary (padding : ℚ) (emin emax : V3) (primaries : List BObj) :
    Option (BObj × ℚ) :=
  bestPrimaryAux padding emin emax primaries none

/-- Source line `if best_p: assignment[best_p].add(extra)` — the primary a candidate
is assigned to, if any. -/
def assignExtra (padding : ℚ) (primaries : List BObj) (e : BObj) : Option BObj :=
  (bestPrimary padding e.lo e.hi primaries).map Prod.fst

/-- The set `assignment[p]` of the source, as the list of candidates
assigned to primary `p`. -/
def groupOf (padding : ℚ) (primaries extras : List BObj) (p : BObj) : List BObj :=
  extras.filter (fun e => decide (assignExtra padding primaries e = some p))

/-- Source function `strip_marker(name, marker)`, over Python strings as
character lists: `name[:-len(marker)]` when `marker` is nonempty and
`name` ends with `marker`, else `name` unchanged. -/
def strip_marker (name marker : List Char) : List Char :=
  if marker ≠ [] ∧ marker <:+ name then
    name.take (name.length - marker.length)
  else name

/-- Models `os.path.join(dir, fname)` (posix): `fname` wins when it is
absolute; otherwise `dir` and `fname` are concatenated with exactly one
separator between them. -/
def joinPath (dir fname : List Char) : List Char :=
  if fname.head? = some '/' then fname
  else if dir = [] ∨ dir.getLast? = some '/' then dir ++ fname
  else dir ++ '/' :: fname

/-- The `".glb"` extension appended by `_export_group`. -/
def glbExt : List Char := ['.', 'g', 'l', 'b']

/-- The tracked part of the scene during a batch export: each object id's
world translation (`obj.location`) and whether the object still exists
(`obj.name in bpy.data.objects`). -/
structure WState where
  loc : ℕ → V3
  alive : ℕ → Bool

/-- One export group handed to `_export_group`: the primary (`main_obj`),
its snap markers (`snaps`) and its proximity-assigned extras. -/
structure Group where
  main : ℕ
  snaps : List ℕ
  extras : List ℕ

/-- All objects `_export_group` snapshots into `loc_backup`: the primary,
then every snap, then every extra. -/
def groupIds (g : Group) : List ℕ :=
  g.main :: (g.snaps ++ g.extras)

/-- The `loc_backup` dictionary: each snapshotted object paired with its
translation at entry (all snapshots happen before any mutation). -/
def backup (st : WState) (g : Group) : List (ℕ × V3) :=
  (groupIds g).map (fun i => (i, st.loc i))

/-- Source line `obj.location += offset` for one object. -/
def addOffset (off : V3) (i : ℕ) (st : WState) : WState :=
  { st with loc := Function.update st.loc i (st.loc i + off) }

/-- Source loop `for e in l: e.location += offset`, in list order. -/
def addOffsetAll (off : V3) : List ℕ → WState → WState
  | [], st => st
  | i :: rest, st => addOffsetAll off rest (addOffset off i st)

/-- The offset step of `_export_group`: `offset = -main_obj.location`,
then `+= offset` on the primary, every snap and every extra, in that
order. -/
def applyOffset (g : Group) (st : WState) : WState :=
  let off := -(st.loc g.main)
  addOffsetAll off g.extras (addOffsetAll off g.snaps (addOffset off g.main st))

/-- The `finally` block of `_export_group`: for each `(o2, loc)` pair of
`loc_backup` in order, restore `o2.location = loc` when `o2.name in
bpy.data.objects` still holds, else skip that object. -/
def restore : List (ℕ × V3) → WState → WState
  | [], st => st
  | p :: rest, st =>
    restore rest
      (if st.alive p.1 then { st with loc := Function.update st.loc p.1 p.2 } else st)

/-- The external exporter (`bpy.ops.export_scene.gltf`), a black box: it
may mutate the tracked scene state arbitrarily (`effect`) and may raise
(`raises`). -/
structure Exporter where
  raises : Bool
  effect : WState → WState

/-- What one `_export_group` call produces: whether it reports success,
the scene state when it returns, and the path it handed the exporter. -/
structure ExportResult where
  success : Bool
  finalSt : WState
  path : List Char

/-- Method `_export_group` over the tracked state: snapshot translations, shift
the group so the primary sits at the origin, build the output path from
the stripped and cleaned primary name, invoke the exporter inside
`try/except` (an exception is caught and reported as failure), and in
the `finally` block restore every snapshotted translation whose object
still exists.  Selection, collection filing and hide-after bookkeeping
touch neither translations nor existence and are not tracked; the host's
`bpy.path.clean_name` is the opaque argument `cleanName`; `names` gives
each object id's display name. -/
def export_group (cleanName : List Char → List Char) (out_dir marker : List Char)
    (names : ℕ → List Char) (exp : Exporter) (g : Group) (st : WState) :
    ExportResult :=
  let bk := backup st g
  let st1 := applyOffset g st
  let clean := strip_marker (names g.main) marker
  let fname := cleanName clean ++ glbExt
  let full_path := joinPath out_dir fname
  let st2 := exp.effect st1
  let success := !exp.raises
  let st3 := restore bk st2
  { success := success, finalSt := st3, path := full_path }

/-- The per-primary export loop of `execute`:
`exported = 0; for each group: if _export_group(...): exported += 1`,
threading the scene state through the calls; `exps` gives the exporter's
behaviour on each primary's call. -/
def runBatchAux (cleanName : List Char → List Char) (out_dir marker : List Char)
    (names : ℕ → List Char) (exps : ℕ → Exporter) :
    List Group → ℕ × WState → ℕ × WState
  | [], acc => acc
  | g :: gs, (n, st) =>
    let r := export_group cleanName out_dir marker names (exps g.main) g st
    runBatchAux cleanName out_dir marker names exps gs
      (n + (if r.success then 1 else 0), r.finalSt)

/-- The batch loop started with `exported = 0`. -/
def runBatch (cleanName : List Char → List Char) (out_dir marker : List Char)
    (names : ℕ → List Char) (exps : ℕ → Exporter) (gs : List Group)
    (st : WState) : ℕ × WState :=
  runBatchAux cleanName out_dir marker names exps gs (0, st)

/-- The distance the grouper computes for primary `p` against a candidate
AABB: `aabb_min_distance(inflate_aabb(p.lo, p.hi, padding), emin, emax)`. -/
noncomputable def primaryDist (padding : ℚ) (emin emax : V3) (p : BObj) : ℝ :=
  aabb_min_distance (inflate_aabb p.lo p.hi padding).1
    (inflate_aabb p.lo p.hi padding).2 emin emax

/-! ### Bridge between the executable squared gaps and the real distance -/

theorem gapAxis_nonneg (a b c d : ℚ) : 0 ≤ gapAxis a b c d :=
  le_max_left 0 _

theorem gapSq_nonneg (a_min a_max b_min b_max : V3) :
    0 ≤ gapSq a_min a_max b_min b_max := by
  simp only [gapSq]
  have hx := mul_self_nonneg (gapAxis a_min.x a_max.x b_min.x b_max.x)
  have hy := mul_self_nonneg (gapAxis a_min.y a_max.y b_min.y b_max.y)
  have hz := mul_self_nonneg (gapAxis a_min.z a_max.z b_min.z b_max.z)
  linarith

theorem aabb_min_distance_eq_sqrt_gapSq (a_min a_max b_min b_max : V3) :
    aabb_min_distance a_min a_max b_min b_max
      = Real.sqrt ((gapSq a_min a_max b_min b_max : ℚ) : ℝ) := by
  unfold aabb_min_distance gapSq gapAxis
  push_cast
  ring_nf

theorem aabb_min_distance_nonneg (a_min a_max b_min b_max : V3) :
    0 ≤ aabb_min_distance a_min a_max b_min b_max := by
  rw [aabb_min_distance_eq_sqrt_gapSq]; exact Real.sqrt_nonneg _

theorem primaryDist_eq_sqrt_gapSqTo (padding : ℚ) (emin emax : V3) (p : BObj) :
    primaryDist padding emin emax p
      = Real.sqrt ((gapSqTo padding emin emax p : ℚ) : ℝ) := by
  unfold primaryDist gapSqTo
  exact aabb_min_distance_eq_sqrt_gapSq _ _ _ _

theorem primaryDist_le_padding_iff (padding : ℚ) (hpad : 0 ≤ padding)
    (emin emax : V3) (p : BObj) :
    primaryDist padding emin emax p ≤ (padding : ℝ) ↔
      gapSqTo padding emin emax p ≤ padding * padding := by
  rw [primaryDist_eq_sqrt_gapSqTo, Real.sqrt_le_iff]
  constructor
  · rintro ⟨-, h⟩
    have h2 : ((gapSqTo padding emin emax p : ℚ) : ℝ) ≤ ((padding * padding : ℚ) : ℝ) := by
      push_cast
      nlinarith [h]
    exact_mod_cast h2
  · intro h
    refine ⟨by exact_mod_cast hpad, ?_⟩
    have h2 : ((gapSqTo padding emin emax p : ℚ) : ℝ) ≤ ((padding * padding : ℚ) : ℝ) := by
      exact_mod_cast h
    push_cast at h2
    nlinarith [h2]

theorem primaryDist_le_iff (padding : ℚ) (emin emax : V3) (p q : BObj) :
    primaryDist padding emin emax p ≤ primaryDist padding emin emax q ↔
      gapSqTo padding emin emax p ≤ gapSqTo padding emin emax q := by
  rw [primaryDist_eq_sqrt_gapSqTo, primaryDist_eq_sqrt_gapSqTo,
    Real.sqrt_le_sqrt_iff (by exact_mod_cast gapSq_nonneg _ _ _ _)]
  exact_mod_cast Iff.rfl

theorem primaryDist_lt_iff (padding : ℚ) (emin emax : V3) (p q : BObj) :
    primaryDist padding emin emax p < primaryDist padding emin emax q ↔
      gapSqTo padding emin emax p < gapSqTo padding emin emax q := by
  rw [primaryDist_eq_sqrt_gapSqTo, primaryDist_eq_sqrt_gapSqTo,
    Real.sqrt_lt_sqrt_iff (by exact_mod_cast gapSq_nonneg _ _ _ _)]
  exact_mod_cast Iff.rfl

/-! ### Characterization of the grouper's inner loop -/

theorem bestAux_isSome_of_acc (padding : ℚ) (emin emax : V3) :
    ∀ (ps : List BObj) (b : BObj) (db : ℚ),
      (bestPrimaryAux padding emin emax ps (some (b, db))).isSome = true := by
  intro ps
  induction ps with
  | nil => intro b db; rfl
  | cons p ps ih =>
    intro b db
    simp only [bestPrimaryAux]
    by_cases h : gapSqTo padding emin emax p ≤ padding * padding
    · rw [if_pos h]
      by_cases h2 : gapSqTo padding emin emax p < db
      · rw [if_pos h2]; exact ih p (gapSqTo padding emin emax p)
      · rw [if_neg h2]; exact ih b db
    · rw [if_neg h]; exact ih b db

theorem bestAux_none_iff (padding : ℚ) (emin emax : V3) :
    ∀ (ps : List BObj),
      bestPrimaryAux padding emin emax ps none = none ↔
        ∀ q ∈ ps, ¬ gapSqTo padding emin emax q ≤ padding * padding := by
  intro ps
  induction ps with
  | nil => simp [bestPrimaryAux]
  | cons p ps ih =>
    simp only [bestPrimaryAux]
    by_cases h : gapSqTo padding emin emax p ≤ padding * padding
    · rw [if_pos h]
      constructor
      · intro hres
        have := bestAux_isSome_of_acc padding emin emax ps p (gapSqTo padding emin emax p)
        rw [hres] at this
        exact absurd this (by simp)
      · intro hall
        exact absurd h (hall p (by simp))
    · rw [if_neg h, ih]
      constructor
      · intro hall q hq
        rcases List.mem_cons.mp hq with rfl | hq2
        · exact h
        · exact hall q hq2
      · intro hall q hq
        exact hall q (List.mem_cons_of_mem _ hq)

/-- Full characterization of the loop's accumulator-passing recursion:
a `some (r, dr)` result either is the untouched accumulator, now known
to be no worse than every eligible primary of the remaining list, or
names an eligible primary `r` of the list at distance `dr`, strictly
better than the accumulator and than every eligible primary before it,
and no worse than every eligible primary after it. -/
theorem bestAux_spec (padding : ℚ) (emin emax : V3) :
    ∀ (ps : List BObj) (acc : Option (BObj × ℚ)) (r : BObj) (dr : ℚ),
      bestPrimaryAux padding emin emax ps acc = some (r, dr) →
      (acc = some (r, dr) ∧
        ∀ q ∈ ps, gapSqTo padding emin emax q ≤ padding * padding →
          dr ≤ gapSqTo padding emin emax q)
      ∨ (∃ l₁ l₂, ps = l₁ ++ r :: l₂
          ∧ gapSqTo padding emin emax r ≤ padding * padding
          ∧ dr = gapSqTo padding emin emax r
          ∧ (∀ b db, acc = some (b, db) → dr < db)
          ∧ (∀ q ∈ l₁, gapSqTo padding emin emax q ≤ padding * padding →
              dr < gapSqTo padding emin emax q)
          ∧ (∀ q ∈ l₂, gapSqTo padding emin emax q ≤ padding * padding →
              dr ≤ gapSqTo padding emin emax q)) := by
  intro ps
  induction ps with
  | nil =>
    intro acc r dr h
    exact Or.inl ⟨h, by simp⟩
  | cons p ps ih =>
    intro acc r dr h
    cases acc with
    | none =>
      simp only [bestPrimaryAux] at h
      by_cases hp : gapSqTo padding emin emax p ≤ padding * padding
      · rw [if_pos hp] at h
        rcases ih (some (p, gapSqTo padding emin emax p)) r dr h with
          ⟨heq, hmin⟩ | ⟨l₁, l₂, hsplit, her, hdr, hstrict, hl₁, hl₂⟩
        · simp only [Option.some.injEq, Prod.mk.injEq] at heq
          obtain ⟨h1, h2⟩ := heq
          subst h1
          subst h2
          refine Or.inr ⟨[], ps, by simp, hp, rfl, ?_, ?_, hmin⟩
          · exact fun b db hb => Option.noConfusion hb
          · intro q hq; exact absurd hq (List.not_mem_nil q)
        · refine Or.inr ⟨p :: l₁, l₂, by rw [hsplit]; rfl, her, hdr, ?_, ?_, hl₂⟩
          · exact fun b db hb => Option.noConfusion hb
          · intro q hq hqe
            rcases List.mem_cons.mp hq with rfl | hq2
            · exact hstrict q (gapSqTo padding emin emax q) rfl
            · exact hl₁ q hq2 hqe
      · rw [if_neg hp] at h
        rcases ih none r dr h with
          ⟨heq, hmin⟩ | ⟨l₁, l₂, hsplit, her, hdr, hstrict, hl₁, hl₂⟩
        · exact absurd heq (by simp)
        · refine Or.inr ⟨p :: l₁, l₂, by rw [hsplit]; rfl, her, hdr, hstrict, ?_, hl₂⟩
          intro q hq hqe
          rcases List.mem_cons.mp hq with rfl | hq2
          · exact absurd hqe hp
          · exact hl₁ q hq2 hqe
    | some bpr =>
      rcases bpr with ⟨b, db⟩
      simp only [bestPrimaryAux] at h
      by_cases hp : gapSqTo padding emin emax p ≤ padding * padding
      · rw [if_pos hp] at h
        by_cases hlt : gapSqTo padding emin emax p < db
        · rw [if_pos hlt] at h
          rcases ih (some (p, gapSqTo padding emin emax p)) r dr h with
            ⟨heq, hmin⟩ | ⟨l₁, l₂, hsplit, her, hdr, hstrict, hl₁, hl₂⟩
          · simp only [Option.some.injEq, Prod.mk.injEq] at heq
            obtain ⟨h1, h2⟩ := heq
            subst h1
            subst h2
            refine Or.inr ⟨[], ps, by simp, hp, rfl, ?_, ?_, hmin⟩
            · intro b2 db2 hb
              simp only [Option.some.injEq, Prod.mk.injEq] at hb
              rw [← hb.2]
              exact hlt
            · intro q hq; exact absurd hq (List.not_mem_nil q)
          · refine Or.inr ⟨p :: l₁, l₂, by rw [hsplit]; rfl, her, hdr, ?_, ?_, hl₂⟩
            · intro b2 db2 hb
              simp only [Option.some.injEq, Prod.mk.injEq] at hb
              rw [← hb.2]
              exact lt_trans (hstrict p (gapSqTo padding emin emax p) rfl) hlt
            · intro q hq hqe
              rcases List.mem_cons.mp hq with rfl | hq2
              · exact hstrict q (gapSqTo padding emin emax q) rfl
              · exact hl₁ q hq2 hqe
        · rw [if_neg hlt] at h
          rcases ih (some (b, db)) r dr h with
            ⟨heq, hmin⟩ | ⟨l₁, l₂, hsplit, her, hdr, hstrict, hl₁, hl₂⟩
          · refine Or.inl ⟨heq, ?_⟩
            intro q hq hqe
            rcases List.mem_cons.mp hq with rfl | hq2
            · simp only [Option.some.injEq, Prod.mk.injEq] at heq
              rw [← heq.2]
              exact le_of_not_lt hlt
            · exact hmin q hq2 hqe
          · refine Or.inr ⟨p :: l₁, l₂, by rw [hsplit]; rfl, her, hdr, hstrict, ?_, hl₂⟩
            intro q hq hqe
            rcases List.mem_cons.mp hq with rfl | hq2
            · exact lt_of_lt_of_le (hstrict b db rfl) (le_of_not_lt hlt)
            · exact hl₁ q hq2 hqe
      · rw [if_neg hp] at h
        rcases ih (some (b, db)) r dr h with
          ⟨heq, hmin⟩ | ⟨l₁, l₂, hsplit, her, hdr, hstrict, hl₁, hl₂⟩
        · refine Or.inl ⟨heq, ?_⟩
          intro q hq hqe
          rcases List.mem_cons.mp hq with rfl | hq2
          · exact absurd hqe hp
          · exact hmin q hq2 hqe
        · refine Or.inr ⟨p :: l₁, l₂, by rw [hsplit]; rfl, her, hdr, hstrict, ?_, hl₂⟩
          intro q hq hqe
          rcases List.mem_cons.mp hq with rfl | hq2
          · exact absurd hqe hp
          · exact hl₁ q hq2 hqe

/-! ### Concrete scene objects used by the witnesses (the spec's §8 scenario) -/

/-- Primary A of the spec scenario: world AABB `[-1,1]³`. -/
def objA : BObj := ⟨0, ⟨-1, -1, -1⟩, ⟨1, 1, 1⟩⟩

/-- Candidate B of the spec scenario: world AABB `[2,4]×[-1,1]×[-1,1]`. -/
def objB : BObj := ⟨1, ⟨2, -1, -1⟩, ⟨4, 1, 1⟩⟩

/-- A candidate overlapping `objA`: world AABB `[0,2]³`. -/
def objC : BObj := ⟨2, ⟨0, 0, 0⟩, ⟨2, 2, 2⟩⟩

/-! ### Claim theorems about the grouper -/

/-- Claim C1: in the batch-export proximity grouping, every candidate is
assigned to at most one primary; an assigned primary is in the primary
list, is eligible (its padded-AABB gap to the candidate is at most the
padding), attains the minimum gap among all eligible primaries, and is
the first primary in iteration order among the eligible ones attaining
it (every eligible primary listed before it has a strictly larger gap);
a candidate with no eligible primary appears in no primary's group. -/
theorem grouping_unique_nearest_assignment (padding : ℚ) (hpad : 0 ≤ padding)
    (primaries extras : List BObj) (e : BObj) :
    (∀ p q, e ∈ groupOf padding primaries extras p →
        e ∈ groupOf padding primaries extras q → p = q)
    ∧ (∀ p, assignExtra padding primaries e = some p →
        p ∈ primaries
        ∧ primaryDist padding e.lo e.hi p ≤ (padding : ℝ)
        ∧ (∀ q ∈ primaries, primaryDist padding e.lo e.hi q ≤ (padding : ℝ) →
            primaryDist padding e.lo e.hi p ≤ primaryDist padding e.lo e.hi q)
        ∧ ∃ l₁ l₂, primaries = l₁ ++ p :: l₂
            ∧ ∀ q ∈ l₁, primaryDist padding e.lo e.hi q ≤ (padding : ℝ) →
                primaryDist padding e.lo e.hi p < primaryDist padding e.lo e.hi q)
    ∧ ((∀ q ∈ primaries, ¬ primaryDist padding e.lo e.hi q ≤ (padding : ℝ)) →
        ∀ p, e ∉ groupOf padding primaries extras p) := by
  refine ⟨?_, ?_, ?_⟩
  · intro p q hp hq
    simp only [groupOf, List.mem_filter, decide_eq_true_eq] at hp hq
    exact Option.some.inj (hp.2.symm.trans hq.2)
  · intro p hassign
    simp only [assignExtra, bestPrimary] at hassign
    cases hbp : bestPrimaryAux padding e.lo e.hi primaries none with
    | none => rw [hbp] at hassign; exact absurd hassign (by simp)
    | some pr =>
      rcases pr with ⟨p', dsq⟩
      rw [hbp] at hassign
      simp only [Option.map_some', Option.some.injEq] at hassign
      subst hassign
      rcases bestAux_spec padding e.lo e.hi primaries none p' dsq hbp with
        ⟨heq, -⟩ | ⟨l₁, l₂, hsplit, her, hdr, -, hl₁, hl₂⟩
      · exact absurd heq (by simp)
      · have hmem : p' ∈ primaries := by
          rw [hsplit]
          exact List.mem_append.mpr (Or.inr (List.mem_cons_self p' l₂))
        refine ⟨hmem, (primaryDist_le_padding_iff padding hpad e.lo e.hi p').mpr her, ?_, ?_⟩
        · intro q hq hqle
          have hqe := (primaryDist_le_padding_iff padding hpad e.lo e.hi q).mp hqle
          refine (primaryDist_le_iff padding e.lo e.hi p' q).mpr ?_
          rw [hsplit] at hq
          rcases List.mem_append.mp hq with hq1 | hq2
          · exact le_of_lt (hdr ▸ hl₁ q hq1 hqe)
          · rcases List.mem_cons.mp hq2 with rfl | hq3
            · exact le_refl _
            · exact hdr ▸ hl₂ q hq3 hqe
        · refine ⟨l₁, l₂, hsplit, ?_⟩
          intro q hq1 hqle
          have hqe := (primaryDist_le_padding_iff padding hpad e.lo e.hi q).mp hqle
          exact (primaryDist_lt_iff padding e.lo e.hi p' q).mpr (hdr ▸ hl₁ q hq1 hqe)
  · intro hnone p hmem
    have hzero : bestPrimaryAux padding e.lo e.hi primaries none = none := by
      refine (bestAux_none_iff padding e.lo e.hi primaries).mpr ?_
      intro q hq hqe
      exact hnone q hq ((primaryDist_le_padding_iff padding hpad e.lo e.hi q).mpr hqe)
    simp only [groupOf, List.mem_filter, decide_eq_true_eq, assignExtra, bestPrimary,
      hzero, Option.map_none'] at hmem
    exact Option.noConfusion hmem.2

theorem grouping_unique_nearest_assignment_witness : objA ∈ [objA] :=
  ((grouping_unique_nearest_assignment 1 (by norm_num) [objA] [objB] objB).2.1 objA
    (by with_unfolding_all decide)).1

/-- Claim C3: `aabb_min_distance` is the Euclidean norm of the per-axis
clamped gaps `max(0, other_min - self_max, self_min - other_max)`, it
vanishes on overlapping or touching boxes, and the quantity the grouper
compares for a primary is exactly this distance applied to the
candidate's AABB and the primary's AABB inflated by the padding. -/
theorem aabb_min_distance_formula_overlap_grouper
    (a_min a_max b_min b_max emin emax : V3) (pad : ℚ) (p : BObj) :
    aabb_min_distance a_min a_max b_min b_max
      = Real.sqrt
        ((max 0 (max ((b_min.x : ℝ) - a_max.x) ((a_min.x : ℝ) - b_max.x))) ^ 2
          + (max 0 (max ((b_min.y : ℝ) - a_max.y) ((a_min.y : ℝ) - b_max.y))) ^ 2
          + (max 0 (max ((b_min.z : ℝ) - a_max.z) ((a_min.z : ℝ) - b_max.z))) ^ 2)
    ∧ (b_min.x ≤ a_max.x → a_min.x ≤ b_max.x → b_min.y ≤ a_max.y → a_min.y ≤ b_max.y →
        b_min.z ≤ a_max.z → a_min.z ≤ b_max.z →
        aabb_min_distance a_min a_max b_min b_max = 0)
    ∧ Real.sqrt ((gapSqTo pad emin emax p : ℚ) : ℝ)
        = aabb_min_distance (inflate_aabb p.lo p.hi pad).1
            (inflate_aabb p.lo p.hi pad).2 emin emax := by
  refine ⟨?_, ?_, ?_⟩
  · rw [aabb_min_distance_eq_sqrt_gapSq]
    congr 1
    push_cast [gapSq, gapAxis]
    ring
  · intro h1 h2 h3 h4 h5 h6
    rw [aabb_min_distance_eq_sqrt_gapSq]
    have hx : gapAxis a_min.x a_max.x b_min.x b_max.x = 0 :=
      max_eq_left (max_le (sub_nonpos.mpr h1) (sub_nonpos.mpr h2))
    have hy : gapAxis a_min.y a_max.y b_min.y b_max.y = 0 :=
      max_eq_left (max_le (sub_nonpos.mpr h3) (sub_nonpos.mpr h4))
    have hz : gapAxis a_min.z a_max.z b_min.z b_max.z = 0 :=
      max_eq_left (max_le (sub_nonpos.mpr h5) (sub_nonpos.mpr h6))
    have hzero : gapSq a_min a_max b_min b_max = 0 := by
      simp [gapSq, hx, hy, hz]
    rw [hzero]
    simp
  · simp only [gapSqTo]
    exact (aabb_min_distance_eq_sqrt_gapSq _ _ _ _).symm

theorem aabb_min_distance_formula_overlap_grouper_witness :
    aabb_min_distance ⟨0, 0, 0⟩ ⟨1, 1, 1⟩ ⟨0, 0, 0⟩ ⟨1, 1, 1⟩ = 0 :=
  (aabb_min_distance_formula_overlap_grouper ⟨0, 0, 0⟩ ⟨1, 1, 1⟩ ⟨0, 0, 0⟩ ⟨1, 1, 1⟩
      ⟨0, 0, 0⟩ ⟨1, 1, 1⟩ 0 objA).2.1
    (by norm_num) (by norm_num) (by norm_num) (by norm_num) (by norm_num) (by norm_num)

/-- Claim C9: `aabb_min_distance` is symmetric in its two boxes and its
result is always nonnegative. -/
theorem aabb_min_distance_symm_and_nonneg (a_min a_max b_min b_max : V3) :
    aabb_min_distance a_min a_max b_min b_max = aabb_min_distance b_min b_max a_min a_max
    ∧ 0 ≤ aabb_min_distance a_min a_max b_min b_max := by
  refine ⟨?_, aabb_min_distance_nonneg _ _ _ _⟩
  have hax : ∀ u v w t : ℚ, gapAxis u v w t = gapAxis w t u v := by
    intro u v w t
    simp only [gapAxis]
    rw [max_comm (w - v) (u - t)]
  have key : gapSq a_min a_max b_min b_max = gapSq b_min b_max a_min a_max := by
    simp only [gapSq]
    rw [hax a_min.x a_max.x b_min.x b_max.x, hax a_min.y a_max.y b_min.y b_max.y,
      hax a_min.z a_max.z b_min.z b_max.z]
  rw [aabb_min_distance_eq_sqrt_gapSq, aabb_min_distance_eq_sqrt_gapSq, key]

/-- Claim C5: a candidate whose AABB overlaps (or touches) some primary's
un-inflated AABB has gap zero to that primary's padded AABB, hence is
always assigned to some primary when the padding is nonnegative. -/
theorem overlapping_candidate_assigned (padding : ℚ) (hpad : 0 ≤ padding)
    (primaries extras : List BObj) (e p : BObj)
    (hp : p ∈ primaries) (he : e ∈ extras)
    (hov : p.lo.x ≤ e.hi.x ∧ e.lo.x ≤ p.hi.x ∧ p.lo.y ≤ e.hi.y ∧ e.lo.y ≤ p.hi.y
        ∧ p.lo.z ≤ e.hi.z ∧ e.lo.z ≤ p.hi.z) :
    primaryDist padding e.lo e.hi p = 0
    ∧ ∃ q, e ∈ groupOf padding primaries extras q := by
  obtain ⟨h1, h2, h3, h4, h5, h6⟩ := hov
  have hzero : gapSqTo padding e.lo e.hi p = 0 := by
    have hx : gapAxis (p.lo.x - padding) (p.hi.x + padding) e.lo.x e.hi.x = 0 :=
      max_eq_left (max_le (by linarith) (by linarith))
    have hy : gapAxis (p.lo.y - padding) (p.hi.y + padding) e.lo.y e.hi.y = 0 :=
      max_eq_left (max_le (by linarith) (by linarith))
    have hz : gapAxis (p.lo.z - padding) (p.hi.z + padding) e.lo.z e.hi.z = 0 :=
      max_eq_left (max_le (by linarith) (by linarith))
    simp [gapSqTo, inflate_aabb, gapSq, hx, hy, hz]
  have hdzero : primaryDist padding e.lo e.hi p = 0 := by
    rw [primaryDist_eq_sqrt_gapSqTo, hzero]
    simp
  refine ⟨hdzero, ?_⟩
  have helig : gapSqTo padding e.lo e.hi p ≤ padding * padding := by
    rw [hzero]
    exact mul_self_nonneg padding
  cases hbp : bestPrimaryAux padding e.lo e.hi primaries none with
  | none =>
    exact absurd helig ((bestAux_none_iff padding e.lo e.hi primaries).mp hbp p hp)
  | some pr =>
    refine ⟨pr.1, ?_⟩
    simp [groupOf, List.mem_filter, he, assignExtra, bestPrimary, hbp]

theorem overlapping_candidate_assigned_witness :
    ∃ q, objC ∈ groupOf 1 [objA] [objC] q :=
  (overlapping_candidate_assigned 1 (by norm_num) [objA] [objC] objC objA
    (by with_unfolding_all decide) (by with_unfolding_all decide)
    (by with_unfolding_all decide)).2

/-- Claim C4 counterexample: for primary A with AABB `[-1,1]³` and
candidate B with AABB `[2,4]×[-1,1]×[-1,1]`, the code does NOT leave B
unassigned at padding 0.9: the grouper measures the gap to A's AABB
inflated by 0.9 (gap `0.1 ≤ 0.9`), so B is assigned to A. -/
theorem scenario_padding_counterexample :
    assignExtra (9/10) [objA] objB = some objA
    ∧ objB ∈ groupOf (9/10) [objA] [objB] objA
    ∧ gapSqTo (9/10) objB.lo objB.hi objA = 1/100 := by
  with_unfolding_all decide

/-- Claim C4 amended: with padding 1.0 the grouper assigns B to A, and
with padding 0.9 the grouper ALSO assigns B to A (the gap from B to the
0.9-inflated AABB of A is 0.1 ≤ 0.9); B is left unassigned only for
paddings below 0.5, e.g. 0.4. -/
theorem scenario_padding_amended :
    assignExtra 1 [objA] objB = some objA
    ∧ assignExtra (9/10) [objA] objB = some objA
    ∧ assignExtra (2/5) [objA] objB = none
    ∧ assignExtra (1/2) [objA] objB = some objA := by
  with_unfolding_all decide

/-! ### strip_marker helper lemmas -/

theorem strip_marker_id_of_empty_or_not_suffix (name marker : List Char)
    (h : marker = [] ∨ ¬ marker <:+ name) : strip_marker name marker = name := by
  unfold strip_marker
  rcases h with h | h
  · rw [if_neg]
    simp [h]
  · rw [if_neg]
    intro hc
    exact h hc.2

theorem strip_marker_append_marker (name marker : List Char)
    (hne : marker ≠ []) (hsuf : marker <:+ name) :
    strip_marker name marker ++ marker = name := by
  obtain ⟨t, ht⟩ := hsuf
  unfold strip_marker
  rw [if_pos ⟨hne, ⟨t, ht⟩⟩, ← ht]
  have hlen : (t ++ marker).length - marker.length = t.length := by
    simp [List.length_append]
  rw [hlen, List.take_left]

theorem strip_marker_self (marker : List Char) : strip_marker marker marker = [] := by
  unfold strip_marker
  by_cases h : marker = []
  · rw [if_neg (by simp [h])]
    exact h
  · rw [if_pos ⟨h, List.suffix_refl marker⟩]
    simp

theorem strip_marker_of_append (base marker : List Char) (hne : marker ≠ []) :
    strip_marker (base ++ marker) marker = base := by
  have h := strip_marker_append_marker (base ++ marker) marker hne ⟨base, rfl⟩
  exact List.append_cancel_right h

/-! ### Claim theorem about strip_marker -/

/-- Claim C10: `strip_marker` returns the name unchanged when the marker
is empty or not a suffix; otherwise it removes exactly one trailing copy
of the marker (appending the marker back recovers the name); stripping a
name equal to the marker yields the empty string. -/
theorem strip_marker_suffix_spec (name marker : List Char) :
    ((marker = [] ∨ ¬ marker <:+ name) → strip_marker name marker = name)
    ∧ (marker ≠ [] → marker <:+ name → strip_marker name marker ++ marker = name)
    ∧ strip_marker marker marker = [] :=
  ⟨strip_marker_id_of_empty_or_not_suffix name marker,
   strip_marker_append_marker name marker,
   strip_marker_self marker⟩

theorem strip_marker_suffix_spec_witness :
    strip_marker ['T', '_', '_', 'S', 'R', 'C'] ['_', '_', 'S', 'R', 'C']
        ++ ['_', '_', 'S', 'R', 'C'] = ['T', '_', '_', 'S', 'R', 'C'] :=
  (strip_marker_suffix_spec ['T', '_', '_', 'S', 'R', 'C'] ['_', '_', 'S', 'R', 'C']).2.1
    (by decide) ⟨['T'], rfl⟩

/-! ### V3 algebra helpers -/

theorem V3.add_neg_self (a : V3) : a + -a = 0 := by
  apply V3.ext <;> simp [V3.add_def, V3.neg_def, V3.zero_def]

/-! ### Offset-step helpers -/

theorem addOffset_alive (off : V3) (i j : ℕ) (st : WState) :
    (addOffset off i st).alive j = st.alive j := rfl

theorem addOffsetAll_alive (off : V3) :
    ∀ (l : List ℕ) (st : WState) (j : ℕ),
      (addOffsetAll off l st).alive j = st.alive j := by
  intro l
  induction l with
  | nil => intro st j; rfl
  | cons i rest ih => intro st j; exact ih _ j

theorem addOffset_loc_ne (off : V3) (i j : ℕ) (st : WState) (h : j ≠ i) :
    (addOffset off i st).loc j = st.loc j := by
  simp only [addOffset]
  exact Function.update_noteq h _ _

theorem addOffset_loc_self (off : V3) (i : ℕ) (st : WState) :
    (addOffset off i st).loc i = st.loc i + off := by
  simp only [addOffset]
  exact Function.update_same i _ _

theorem addOffsetAll_loc_of_not_mem (off : V3) :
    ∀ (l : List ℕ) (st : WState) (j : ℕ), j ∉ l →
      (addOffsetAll off l st).loc j = st.loc j := by
  intro l
  induction l with
  | nil => intro st j _; rfl
  | cons i rest ih =>
    intro st j h
    have hne : j ≠ i := fun hji => h (List.mem_cons.mpr (Or.inl hji))
    have hnr : j ∉ rest := fun hc => h (List.mem_cons.mpr (Or.inr hc))
    simp only [addOffsetAll]
    rw [ih _ j hnr, addOffset_loc_ne off i j st hne]

theorem addOffsetAll_loc_of_mem (off : V3) :
    ∀ (l : List ℕ) (st : WState) (j : ℕ), l.Nodup → j ∈ l →
      (addOffsetAll off l st).loc j = st.loc j + off := by
  intro l
  induction l with
  | nil => intro st j _ h; exact absurd h (List.not_mem_nil j)
  | cons i rest ih =>
    intro st j hnd hmem
    simp only [addOffsetAll]
    rcases List.mem_cons.mp hmem with rfl | hmem2
    · have hni : j ∉ rest := (List.nodup_cons.mp hnd).1
      rw [addOffsetAll_loc_of_not_mem off rest _ j hni, addOffset_loc_self]
    · have hne : j ≠ i := by
        intro hji
        subst hji
        exact (List.nodup_cons.mp hnd).1 hmem2
      rw [ih _ j (List.nodup_cons.mp hnd).2 hmem2, addOffset_loc_ne off i j st hne]

/-! ### Restore helpers -/

theorem restore_alive :
    ∀ (bk : List (ℕ × V3)) (st : WState) (j : ℕ),
      (restore bk st).alive j = st.alive j := by
  intro bk
  induction bk with
  | nil => intro st j; rfl
  | cons p rest ih =>
    intro st j
    simp only [restore]
    rw [ih]
    split <;> rfl

theorem restore_loc_of_not_key :
    ∀ (bk : List (ℕ × V3)) (st : WState) (j : ℕ), (∀ v, (j, v) ∉ bk) →
      (restore bk st).loc j = st.loc j := by
  intro bk
  induction bk with
  | nil => intro st j _; rfl
  | cons p rest ih =>
    intro st j h
    have hne : j ≠ p.1 := by
      intro hj
      apply h p.2
      rw [hj]
      exact List.mem_cons_self p rest
    simp only [restore]
    rw [ih _ j (fun v hv => h v (List.mem_cons_of_mem _ hv))]
    split
    · exact Function.update_noteq hne _ _
    · rfl

theorem restore_loc_consistent (f : ℕ → V3) :
    ∀ (bk : List (ℕ × V3)) (st : WState) (j : ℕ),
      (∀ pr ∈ bk, pr.2 = f pr.1) → (∃ v, (j, v) ∈ bk) → st.alive j = true →
      (restore bk st).loc j = f j := by
  intro bk
  induction bk with
  | nil =>
    intro st j _ hex _
    obtain ⟨v, hv⟩ := hex
    exact absurd hv (List.not_mem_nil _)
  | cons p rest ih =>
    intro st j hcons hex halive
    simp only [restore]
    by_cases hkey : ∃ v, (j, v) ∈ rest
    · apply ih _ j (fun pr hpr => hcons pr (List.mem_cons_of_mem _ hpr)) hkey
      split <;> exact halive
    · obtain ⟨v, hv⟩ := hex
      rcases List.mem_cons.mp hv with heq | hmem
      · have hp1 : p.1 = j := by rw [← heq]
        have hp2 : p.2 = f p.1 := hcons p (List.mem_cons_self p rest)
        rw [restore_loc_of_not_key rest _ j (fun w hw => hkey ⟨w, hw⟩)]
        rw [if_pos (by rw [hp1]; exact halive)]
        show Function.update st.loc p.1 p.2 j = f j
        rw [hp1] at hp2
        rw [hp1, Function.update_same]
        exact hp2
      · exact absurd ⟨v, hmem⟩ hkey

/-! ### Batch-count helper -/

theorem runBatchAux_count (cleanName : List Char → List Char) (out_dir marker : List Char)
    (names : ℕ → List Char) (exps : ℕ → Exporter) :
    ∀ (gs : List Group) (n : ℕ) (st : WState),
      (runBatchAux cleanName out_dir marker names exps gs (n, st)).1
        = n + (gs.filter (fun g2 => !(exps g2.main).raises)).length := by
  intro gs
  induction gs with
  | nil => intro n st; simp [runBatchAux]
  | cons g gs ih =>
    intro n st
    simp only [runBatchAux]
    rw [ih]
    have hs : (export_group cleanName out_dir marker names (exps g.main) g st).success
        = !(exps g.main).raises := rfl
    rw [hs]
    cases h : (exps g.main).raises with
    | true => simp [List.filter_cons, h]
    | false =>
      simp [List.filter_cons, h]
      omega

/-! ### Claim theorems about the group exporter -/

/-- Claim C2: group export is translation-neutral — every object
snapshotted by `_export_group` (the primary, each marker, each extra)
that still exists when the call finishes has its translation restored
exactly to its pre-call value, whether the external exporter succeeded
or raised (the exporter here is arbitrary: it may mutate the tracked
state in any way and may or may not raise). -/
theorem export_group_translation_neutral
    (cleanName : List Char → List Char) (out_dir marker : List Char)
    (names : ℕ → List Char) (exp : Exporter) (g : Group) (st : WState) (i : ℕ)
    (hi : i ∈ groupIds g)
    (halive : (export_group cleanName out_dir marker names exp g st).finalSt.alive i = true) :
    (export_group cleanName out_dir marker names exp g st).finalSt.loc i = st.loc i := by
  have hfin : (export_group cleanName out_dir marker names exp g st).finalSt
      = restore (backup st g) (exp.effect (applyOffset g st)) := rfl
  rw [hfin] at halive ⊢
  have hcons : ∀ pr ∈ backup st g, pr.2 = st.loc pr.1 := by
    intro pr hpr
    simp only [backup, List.mem_map] at hpr
    obtain ⟨j, hj, rfl⟩ := hpr
    rfl
  have hex : ∃ v, (i, v) ∈ backup st g :=
    ⟨st.loc i, by simp only [backup, List.mem_map]; exact ⟨i, hi, rfl⟩⟩
  have halive2 : (exp.effect (applyOffset g st)).alive i = true := by
    rw [restore_alive] at halive
    exact halive
  exact restore_loc_consistent st.loc (backup st g) _ i hcons hex halive2

/-- Claim C7: after the offset step, the primary sits at the coordinate
origin and the vector difference between every marker's/extra's
translation and the primary's translation is unchanged (the group has
pairwise distinct objects, as in the source, where the markers are
empties and the extras are meshes distinct from the primary). -/
theorem offset_step_centers_primary (g : Group) (st : WState)
    (hnd : (groupIds g).Nodup) :
    (applyOffset g st).loc g.main = 0
    ∧ ∀ i ∈ g.snaps ++ g.extras,
        (applyOffset g st).loc i - (applyOffset g st).loc g.main
          = st.loc i - st.loc g.main := by
  have hmain : g.main ∉ g.snaps ++ g.extras := (List.nodup_cons.mp hnd).1
  have hrest : (g.snaps ++ g.extras).Nodup := (List.nodup_cons.mp hnd).2
  obtain ⟨hsn, hen, hdisj⟩ := List.nodup_append.mp hrest
  have hmain_sn : g.main ∉ g.snaps := fun hc => hmain (List.mem_append.mpr (Or.inl hc))
  have hmain_en : g.main ∉ g.extras := fun hc => hmain (List.mem_append.mpr (Or.inr hc))
  have hmloc : (applyOffset g st).loc g.main = 0 := by
    simp only [applyOffset]
    rw [addOffsetAll_loc_of_not_mem _ _ _ _ hmain_en,
      addOffsetAll_loc_of_not_mem _ _ _ _ hmain_sn,
      addOffset_loc_self]
    exact V3.add_neg_self _
  refine ⟨hmloc, ?_⟩
  intro i hi
  have hne : i ≠ g.main := by
    intro hc
    subst hc
    exact hmain hi
  have hloc : (applyOffset g st).loc i = st.loc i + -(st.loc g.main) := by
    simp only [applyOffset]
    rcases List.mem_append.mp hi with hin | hin
    · rw [addOffsetAll_loc_of_not_mem _ _ _ _ (List.disjoint_left.mp hdisj hin),
        addOffsetAll_loc_of_mem _ _ _ _ hsn hin,
        addOffset_loc_ne _ _ _ _ hne]
    · rw [addOffsetAll_loc_of_mem _ _ _ _ hen hin,
        addOffsetAll_loc_of_not_mem _ _ _ _ (fun hc => List.disjoint_left.mp hdisj hc hin),
        addOffset_loc_ne _ _ _ _ hne]
  rw [hloc, hmloc]
  apply V3.ext <;> simp [V3.add_def, V3.neg_def, V3.sub_def, V3.zero_def] <;> ring

/-- Claim C6: an exporter exception is caught and `_export_group`
reports failure for that group only; the batch count equals the number
of groups whose exporter call does not raise, so a failing group never
affects whether a later group is exported and counted. -/
theorem export_failure_isolated
    (cleanName : List Char → List Char) (out_dir marker : List Char)
    (names : ℕ → List Char) (exps : ℕ → Exporter) (exp : Exporter)
    (g : Group) (gs : List Group) (st : WState)
    (hraise : exp.raises = true) :
    (export_group cleanName out_dir marker names exp g st).success = false
    ∧ (runBatch cleanName out_dir marker names exps gs st).1
        = (gs.filter (fun g2 => !(exps g2.main).raises)).length := by
  constructor
  · show (!exp.raises) = false
    rw [hraise]
    rfl
  · have h := runBatchAux_count cleanName out_dir marker names exps gs 0 st
    simpa [runBatch] using h

/-- Claim C8: the output artifact path handed to the exporter is the
output directory joined with the primary's display name, its trailing
suffix marker stripped when present, made filesystem-safe by the host's
`clean_name` (opaque here), with `".glb"` appended. -/
theorem export_output_path_naming
    (cleanName : List Char → List Char) (out_dir marker : List Char)
    (names : ℕ → List Char) (exp : Exporter) (g : Group) (st : WState) :
    (export_group cleanName out_dir marker names exp g st).path
      = joinPath out_dir (cleanName (strip_marker (names g.main) marker) ++ glbExt)
    ∧ (∀ base, marker ≠ [] → names g.main = base ++ marker →
        (export_group cleanName out_dir marker names exp g st).path
          = joinPath out_dir (cleanName base ++ glbExt))
    ∧ (¬ marker <:+ names g.main →
        (export_group cleanName out_dir marker names exp g st).path
          = joinPath out_dir (cleanName (names g.main) ++ glbExt)) := by
  have hpath : (export_group cleanName out_dir marker names exp g st).path
      = joinPath out_dir (cleanName (strip_marker (names g.main) marker) ++ glbExt) := rfl
  refine ⟨hpath, ?_, ?_⟩
  · intro base hne hbase
    rw [hpath, hbase, strip_marker_of_append base marker hne]
  · intro hnsuf
    rw [hpath, strip_marker_id_of_empty_or_not_suffix _ _ (Or.inr hnsuf)]

/-! ### Concrete export scenario used by the witnesses -/

/-- A concrete scene: object `i` at translation `(i, 0, 0)`, everything
alive. -/
def stW : WState := ⟨fun i => ⟨(i : ℚ), 0, 0⟩, fun _ => true⟩

/-- A concrete group: primary 0, one marker 1, one extra 2. -/
def gW : Group := ⟨0, [1], [2]⟩

/-- A second group with no markers and no extras. -/
def gW2 : Group := ⟨3, [], []⟩

/-- An exporter call that raises and leaves the scene as is. -/
def expFail : Exporter := ⟨true, fun s => s⟩

/-- Per-primary exporter behaviour: the call for primary 0 raises, every
other call succeeds. -/
def expsW : ℕ → Exporter := fun i => if i = 0 then ⟨true, fun s => s⟩ else ⟨false, fun s => s⟩

theorem export_group_translation_neutral_witness :
    (export_group (fun s => s) [] [] (fun _ => []) expFail gW stW).finalSt.loc 1 = stW.loc 1 :=
  export_group_translation_neutral (fun s => s) [] [] (fun _ => []) expFail gW stW 1
    (by decide) (by rfl)

theorem offset_step_centers_primary_witness :
    (applyOffset gW stW).loc gW.main = 0 :=
  (offset_step_centers_primary gW stW (by decide)).1

theorem export_failure_isolated_witness :
    (export_group (fun s => s) [] [] (fun _ => []) expFail gW stW).success = false
    ∧ (runBatch (fun s => s) [] [] (fun _ => []) expsW [gW, gW2] stW).1 = 1 := by
  have h := export_failure_isolated (fun s => s) [] [] (fun _ => []) expsW expFail gW
    [gW, gW2] stW rfl
  exact ⟨h.1, h.2.trans (by rfl)⟩

theorem export_output_path_naming_witness :
    (export_group (fun s => s) ['o'] ['_'] (fun _ => ['n', '_']) expFail gW stW).path
      = joinPath ['o'] (['n'] ++ glbExt) :=
  (export_output_path_naming (fun s => s) ['o'] ['_'] (fun _ => ['n', '_'])
    expFail gW stW).2.1 ['n'] (by decide) rfl

end NISnaps
